import Mathlib

/-!
Verification of the RC5-32/12/16 block cipher implementation (package rc5).

The repository holds two variants of the same algorithm:
  * `rc5.go` — rotations written by hand with explicit `& 31` masks
    (modelled here in namespace `RC5`);
  * a refactor (an unnamed source file) using `math/bits.RotateLeft32`
    and `encoding/binary` (modelled here in namespace `RC5u`).

Machine integers are modelled as `Nat` with explicit reduction modulo
`2 ^ 32`; byte slices are `List Nat` whose elements are below 256.
-/

namespace RC5

/-- The modulus of Go's `uint32` arithmetic, `2 ^ 32`. -/
def W : Nat := 4294967296

theorem W_eq : W = 2 ^ 32 := by decide

theorem W_pos : 0 < W := by decide

/-- Go `uint32` addition: wraparound modulo `2 ^ 32`. -/
def add32 (a b : Nat) : Nat := (a + b) % W

/-- Go `uint32` subtraction `a - b`: wraparound modulo `2 ^ 32`
(faithful for operands below `2 ^ 32`). -/
def sub32 (a b : Nat) : Nat := (a + W - b) % W

/-- Go `k << s` on `uint32`: the value is `k * 2 ^ s mod 2 ^ 32`, so any
count of 32 or more yields 0; capping the count at 32 leaves the value
unchanged and keeps the definition cheap to evaluate. -/
def shl32 (k s : Nat) : Nat := (k <<< min s 32) % W

/-- Go `k >> s` on `uint32`: for `k < 2 ^ 32` any count of 32 or more
yields 0, so capping the count at 32 leaves the value unchanged. -/
def shr32 (k s : Nat) : Nat := k >>> min s 32

/-- `func rotl32(k uint32, rot uint32) uint32 { return (k << rot) | (k >> (32 - rot)) }`
where `32 - rot` is Go `uint32` subtraction (it wraps around for `rot > 32`). -/
def rotl32 (k rot : Nat) : Nat := shl32 k rot ||| shr32 k (sub32 32 rot)

/-- `func rotr32(k uint32, rot uint32) uint32 { return (k >> rot) | (k << (32 - rot)) }`. -/
def rotr32 (k rot : Nat) : Nat := shr32 k rot ||| shl32 k (sub32 32 rot)

/-- `rounds = 12`. -/
def rounds : Nat := 12

/-- `roundKeys = 2 * (rounds + 1)`. -/
def roundKeys : Nat := 2 * (rounds + 1)

/-- `keyWords = 4` (local constant of `New`). -/
def keyWords : Nat := 4

/-- `func getUint32(b []byte) uint32 {
  return uint32(b[0]) | uint32(b[1])<<8 | uint32(b[2])<<16 | uint32(b[3])<<24 }`
(out-of-range reads, which panic in Go, are given the junk value 0;
every claim below supplies buffers long enough). -/
def getUint32 (b : List Nat) : Nat :=
  b.getD 0 0 ||| (b.getD 1 0) <<< 8 ||| (b.getD 2 0) <<< 16 ||| (b.getD 3 0) <<< 24

/-- `putUint32(b, v)` writing through the slice `buf[off:]`: stores the four
little-endian bytes of `v` at indices `off``..``off+3` of the backing buffer
(`byte(v >> 8k)` is `(v >>> 8k) % 256`; `List.set` past the end is a no-op,
matching no claim since Go would panic there). -/
def putUint32At (b : List Nat) (off v : Nat) : List Nat :=
  ((((b.set off (v % 256)).set (off + 1) ((v >>> 8) % 256)).set
      (off + 2) ((v >>> 16) % 256)).set (off + 3) ((v >>> 24) % 256))

/-- `var skeytable = []uint32{...}` — the 26 magic words from the source. -/
def skeytable : List Nat :=
  [0xb7e15163, 0x5618cb1c, 0xf45044d5, 0x9287be8e, 0x30bf3847, 0xcef6b200, 0x6d2e2bb9, 0x0b65a572,
   0xa99d1f2b, 0x47d498e4, 0xe60c129d, 0x84438c56, 0x227b060f, 0xc0b27fc8, 0x5ee9f981, 0xfd21733a,
   0x9b58ecf3, 0x399066ac, 0xd7c7e065, 0x75ff5a1e, 0x1436d3d7, 0xb26e4d90, 0x50a5c749, 0xeedd4102,
   0x8d14babb, 0x2b4c3474]

/-- The key-mixing loop of `New` (`for k := 0; k < 3*roundKeys; k++ { ... }`),
with the schedule `rk`, the key words `L`, the accumulators `A`, `B` and the
indices `i`, `j` threaded explicitly; returns the final schedule. -/
def mixLoop : Nat → List Nat → List Nat → Nat → Nat → Nat → Nat → List Nat
  | 0, rk, _, _, _, _, _ => rk
  | Nat.succ k, rk, L, A, B, i, j =>
    let ri := rotl32 (add32 (rk.getD i 0) (add32 A B)) 3
    let rk2 := rk.set i ri
    let A2 := ri
    let lj := rotl32 (add32 (L.getD j 0) (add32 A2 B)) (add32 A2 B % 32)
    let L2 := L.set j lj
    let B2 := lj
    mixLoop k rk2 L2 A2 B2 ((i + 1) % roundKeys) ((j + 1) % keyWords)

/-- `func New(key []byte) (cipher.Block, error)`: rejects any key whose length
is not 16 with `KeySizeError(l)` (modelled as `Except.error l`), otherwise
packs the key into 4 little-endian words, copies `skeytable` into the
schedule and runs the mixing loop `3 * roundKeys = 78` times. -/
def New (key : List Nat) : Except Nat (List Nat) :=
  if key.length ≠ 16 then Except.error key.length
  else
    let L := [getUint32 key, getUint32 (key.drop 4), getUint32 (key.drop 8),
              getUint32 (key.drop 12)]
    Except.ok (mixLoop (3 * roundKeys) skeytable L 0 0 0 0)

/-- The body of Encrypt's round loop, iterated: `encRounds rk r kidx A B`
performs `r` remaining rounds starting at key index `kidx`. -/
def encRounds (rk : List Nat) : Nat → Nat → Nat → Nat → Nat × Nat
  | 0, _, A, B => (A, B)
  | Nat.succ r, kidx, A, B =>
    let A2 := add32 (rotl32 (A ^^^ B) (B % 32)) (rk.getD kidx 0)
    let B2 := add32 (rotl32 (B ^^^ A2) (A2 % 32)) (rk.getD (kidx + 1) 0)
    encRounds rk r (kidx + 2) A2 B2

/-- `func (c *rc5cipher) Encrypt(dst, src []byte)`: reads both input words
from `src`, runs 12 rounds with the key index starting at 2, then writes
`A` at `dst[0:4]` and `B` at `dst[4:8]`. -/
def Encrypt (rk dst src : List Nat) : List Nat :=
  let A := add32 (getUint32 src) (rk.getD 0 0)
  let B := add32 (getUint32 (src.drop 4)) (rk.getD 1 0)
  let p := encRounds rk rounds 2 A B
  putUint32At (putUint32At dst 0 p.1) 4 p.2

/-- The body of Decrypt's round loop, iterated; the key index starts at
`2 * rounds` and decreases by 2 each round. -/
def decRounds (rk : List Nat) : Nat → Nat → Nat → Nat → Nat × Nat
  | 0, _, A, B => (A, B)
  | Nat.succ r, kidx, A, B =>
    let B2 := rotr32 (sub32 B (rk.getD (kidx + 1) 0)) (A % 32) ^^^ A
    let A2 := rotr32 (sub32 A (rk.getD kidx 0)) (B2 % 32) ^^^ B2
    decRounds rk r (kidx - 2) A2 B2

/-- `func (c *rc5cipher) Decrypt(dst, src []byte)`: reads both input words,
runs the 12 inverse rounds, then writes `B - rk[1]` at `dst[4:8]` followed
by `A - rk[0]` at `dst[0:4]` (that order, as in the source). -/
def Decrypt (rk dst src : List Nat) : List Nat :=
  let A := getUint32 src
  let B := getUint32 (src.drop 4)
  let p := decRounds rk rounds (2 * rounds) A B
  let dst2 := putUint32At dst 4 (sub32 p.2 (rk.getD 1 0))
  putUint32At dst2 0 (sub32 p.1 (rk.getD 0 0))

/-- `Encrypt` replayed over a single byte buffer `mem` holding the
destination at offset `doff` and the source at offset `soff`, in the
statement order of the source: both words are read, the rounds run, and
only then are the two output words written.  Taking `doff = soff` is the
in-place (aliased `dst`/`src`) call. -/
def EncryptMem (rk mem : List Nat) (doff soff : Nat) : List Nat :=
  let A := add32 (getUint32 (mem.drop soff)) (rk.getD 0 0)
  let B := add32 (getUint32 (mem.drop (soff + 4))) (rk.getD 1 0)
  let p := encRounds rk rounds 2 A B
  putUint32At (putUint32At mem doff p.1) (doff + 4) p.2

/-- `Decrypt` replayed over a single byte buffer, as `EncryptMem`. -/
def DecryptMem (rk mem : List Nat) (doff soff : Nat) : List Nat :=
  let A := getUint32 (mem.drop soff)
  let B := getUint32 (mem.drop (soff + 4))
  let p := decRounds rk rounds (2 * rounds) A B
  let mem2 := putUint32At mem (doff + 4) (sub32 p.2 (rk.getD 1 0))
  putUint32At mem2 doff (sub32 p.1 (rk.getD 0 0))

end RC5

namespace RC5u

open RC5 (W add32 sub32 getUint32 putUint32At skeytable rounds roundKeys keyWords)

/-- Go's `math/bits.RotateLeft32(x uint32, k int) uint32`:
`s := uint(k) & 31; return x<<s | x>>(32-s)`.  For any `k : Int`,
`uint(k) & 31` is the nonnegative residue `k mod 32`. -/
def RotateLeft32 (x : Nat) (k : Int) : Nat :=
  let s := (k % 32).toNat
  ((x <<< s) % W) ||| (x >>> (32 - s))

/-- The key-mixing loop of the refactored `New`, which calls
`bits.RotateLeft32` (with the amount converted by `int(...)`) where the
original calls `rotl32`. -/
def mixLoop : Nat → List Nat → List Nat → Nat → Nat → Nat → Nat → List Nat
  | 0, rk, _, _, _, _, _ => rk
  | Nat.succ k, rk, L, A, B, i, j =>
    let ri := RotateLeft32 (add32 (rk.getD i 0) (add32 A B)) 3
    let rk2 := rk.set i ri
    let A2 := ri
    let lj := RotateLeft32 (add32 (L.getD j 0) (add32 A2 B)) (add32 A2 B : Int)
    let L2 := L.set j lj
    let B2 := lj
    mixLoop k rk2 L2 A2 B2 ((i + 1) % roundKeys) ((j + 1) % keyWords)

/-- Refactored `New`: `binary.LittleEndian.Uint32(key[:4])` is the same
little-endian packing as `getUint32`, applied to the 4-byte slice. -/
def New (key : List Nat) : Except Nat (List Nat) :=
  if key.length ≠ 16 then Except.error key.length
  else
    let L := [getUint32 (key.take 4), getUint32 ((key.drop 4).take 4),
              getUint32 ((key.drop 8).take 4), getUint32 ((key.drop 12).take 4)]
    Except.ok (mixLoop (3 * roundKeys) skeytable L 0 0 0 0)

/-- Round loop of the refactored Encrypt: `bits.RotateLeft32(A^B, int(B))`. -/
def encRounds (rk : List Nat) : Nat → Nat → Nat → Nat → Nat × Nat
  | 0, _, A, B => (A, B)
  | Nat.succ r, kidx, A, B =>
    let A2 := add32 (RotateLeft32 (A ^^^ B) (B : Int)) (rk.getD kidx 0)
    let B2 := add32 (RotateLeft32 (B ^^^ A2) (A2 : Int)) (rk.getD (kidx + 1) 0)
    encRounds rk r (kidx + 2) A2 B2

/-- Refactored `Encrypt` (`binary.LittleEndian.Uint32` / `PutUint32`). -/
def Encrypt (rk dst src : List Nat) : List Nat :=
  let A := add32 (getUint32 (src.take 4)) (rk.getD 0 0)
  let B := add32 (getUint32 ((src.drop 4).take 4)) (rk.getD 1 0)
  let p := encRounds rk rounds 2 A B
  putUint32At (putUint32At dst 0 p.1) 4 p.2

/-- Round loop of the refactored Decrypt: rotate right is expressed as
`bits.RotateLeft32(..., -int(A))`, a negative rotate-left amount. -/
def decRounds (rk : List Nat) : Nat → Nat → Nat → Nat → Nat × Nat
  | 0, _, A, B => (A, B)
  | Nat.succ r, kidx, A, B =>
    let B2 := RotateLeft32 (sub32 B (rk.getD (kidx + 1) 0)) (-(A : Int)) ^^^ A
    let A2 := RotateLeft32 (sub32 A (rk.getD kidx 0)) (-(B2 : Int)) ^^^ B2
    decRounds rk r (kidx - 2) A2 B2

/-- Refactored `Decrypt`. -/
def Decrypt (rk dst src : List Nat) : List Nat :=
  let A := getUint32 (src.take 4)
  let B := getUint32 ((src.drop 4).take 4)
  let p := decRounds rk rounds (2 * rounds) A B
  let dst2 := putUint32At dst 4 (sub32 p.2 (rk.getD 1 0))
  putUint32At dst2 0 (sub32 p.1 (rk.getD 0 0))

end RC5u

namespace Spec

/-!
Definitions in this namespace follow the words of the specification
(sections 4.1–4.4), not the source; they exist so that the source
functions can be proved to refine them.
-/

/-- Circular left shift of a 32-bit word by `amount mod 32` bits
(the rotation primitive the spec mandates), written arithmetically:
the low `32 - t` bits move up by `t` places and the high `t` bits
wrap to the bottom. -/
def rotL (x s : Nat) : Nat :=
  (x * 2 ^ (s % 32)) % RC5.W + x / 2 ^ (32 - s % 32)

/-- Circular right shift of a 32-bit word by `amount mod 32` bits. -/
def rotR (x s : Nat) : Nat :=
  x / 2 ^ (s % 32) + (x * 2 ^ (32 - s % 32)) % RC5.W

/-- Little-endian packing of four bytes into a 32-bit word
(least-significant byte first), per spec section 3. -/
def leWord (b : List Nat) : Nat :=
  b.getD 0 0 + 256 * b.getD 1 0 + 65536 * b.getD 2 0 + 16777216 * b.getD 3 0

/-- The four little-endian bytes of a 32-bit word, per spec section 3. -/
def u32LE (v : Nat) : List Nat :=
  [v % 256, v / 256 % 256, v / 65536 % 256, v / 16777216 % 256]

/-- One encryption round `r` of spec section 4.3:
`A = rotate_left_32(A xor B, B mod 32) + schedule[2r]` then
`B = rotate_left_32(B xor A, A mod 32) + schedule[2r+1]`, the new `A`
feeding B's update. -/
def encRound (rk : List Nat) (r A B : Nat) : Nat × Nat :=
  let A2 := RC5.add32 (rotL (A ^^^ B) (B % 32)) (rk.getD (2 * r) 0)
  let B2 := RC5.add32 (rotL (B ^^^ A2) (A2 % 32)) (rk.getD (2 * r + 1) 0)
  (A2, B2)

/-- Rounds `r, r+1, ...` of spec section 4.3, `n` of them. -/
def encIter (rk : List Nat) : Nat → Nat → Nat → Nat → Nat × Nat
  | 0, _, A, B => (A, B)
  | Nat.succ n, r, A, B =>
    let p := encRound rk r A B
    encIter rk n (r + 1) p.1 p.2

/-- `encrypt(schedule, src)` of spec section 4.3: add `schedule[0]`,
`schedule[1]` to the two little-endian input words, run rounds 1..12,
write `A` then `B` little-endian. -/
def encrypt (rk src : List Nat) : List Nat :=
  let A := RC5.add32 (leWord src) (rk.getD 0 0)
  let B := RC5.add32 (leWord (src.drop 4)) (rk.getD 1 0)
  let p := encIter rk 12 1 A B
  u32LE p.1 ++ u32LE p.2

/-- One decryption round `r` of spec section 4.4:
`B = rotate_right_32(B - schedule[2r+1], A mod 32) xor A` then
`A = rotate_right_32(A - schedule[2r], B mod 32) xor B`, B updated first. -/
def decRound (rk : List Nat) (r A B : Nat) : Nat × Nat :=
  let B2 := rotR (RC5.sub32 B (rk.getD (2 * r + 1) 0)) (A % 32) ^^^ A
  let A2 := rotR (RC5.sub32 A (rk.getD (2 * r) 0)) (B2 % 32) ^^^ B2
  (A2, B2)

/-- Rounds `r, r-1, ...` of spec section 4.4, `n` of them. -/
def decIter (rk : List Nat) : Nat → Nat → Nat → Nat → Nat × Nat
  | 0, _, A, B => (A, B)
  | Nat.succ n, r, A, B =>
    let p := decRound rk r A B
    decIter rk n (r - 1) p.1 p.2

/-- `decrypt(schedule, src)` of spec section 4.4: rounds 12 down to 1,
then subtract `schedule[1]`, `schedule[0]` and write `A` then `B`. -/
def decrypt (rk src : List Nat) : List Nat :=
  let A := leWord src
  let B := leWord (src.drop 4)
  let p := decIter rk 12 12 A B
  u32LE (RC5.sub32 p.1 (rk.getD 0 0)) ++ u32LE (RC5.sub32 p.2 (rk.getD 1 0))

/-- The mixing loop of spec section 4.2 (`78` iterations):
`S[i] = rotate_left_32(S[i]+A+B, 3); A = S[i];
L[j] = rotate_left_32(L[j]+A+B, (A+B) mod 32); B = L[j];
i = (i+1) mod 26; j = (j+1) mod 4`, all additions modulo `2^32`. -/
def mixIter : Nat → List Nat → List Nat → Nat → Nat → Nat → Nat → List Nat
  | 0, S, _, _, _, _, _ => S
  | Nat.succ n, S, L, A, B, i, j =>
    let si := rotL (RC5.add32 (S.getD i 0) (RC5.add32 A B)) 3
    let S2 := S.set i si
    let A2 := si
    let lj := rotL (RC5.add32 (L.getD j 0) (RC5.add32 A2 B)) (RC5.add32 A2 B % 32)
    let L2 := L.set j lj
    let B2 := lj
    mixIter n S2 L2 A2 B2 ((i + 1) % 26) ((j + 1) % 4)

/-- `expand(key)` of spec section 4.2: pack the 16 key bytes into 4
little-endian words, start from a copy of the magic table, run the
mixing step exactly `3 * 26 = 78` times. -/
def expand (key : List Nat) : List Nat :=
  let L := [leWord key, leWord (key.drop 4), leWord (key.drop 8), leWord (key.drop 12)]
  mixIter 78 RC5.skeytable L 0 0 0 0

end Spec

namespace RC5

/-! ### Arithmetic and bit-level helper lemmas -/

theorem lor_eq_add {r a b : Nat} (ha : 2 ^ r ∣ a) (hb : b < 2 ^ r) :
    a ||| b = a + b := by
  obtain ⟨c, rfl⟩ := ha
  exact (Nat.mul_add_lt_is_or hb c).symm

theorem add32_lt (a b : Nat) : add32 a b < W := Nat.mod_lt _ W_pos

theorem sub32_lt (a b : Nat) : sub32 a b < W := Nat.mod_lt _ W_pos

theorem getD_lt_of_forall {l : List Nat} {n c : Nat} (h : ∀ x ∈ l, x < c)
    (hc : 0 < c) : l.getD n 0 < c := by
  rw [List.getD_eq_getElem?_getD]
  cases e : l[n]? with
  | none => simpa using hc
  | some a => simpa using h a (List.getElem?_mem e)

theorem shr32_le (k s : Nat) : shr32 k s ≤ k := by
  rw [shr32, Nat.shiftRight_eq_div_pow]
  exact Nat.div_le_self _ _

theorem shl32_lt (k s : Nat) : shl32 k s < W := Nat.mod_lt _ W_pos

theorem rotl32_lt {k : Nat} (hk : k < W) (rot : Nat) : rotl32 k rot < W := by
  rw [rotl32, W_eq] at *
  exact Nat.or_lt_two_pow (W_eq ▸ shl32_lt k rot)
    (Nat.lt_of_le_of_lt (shr32_le k _) hk)

theorem rotr32_lt {k : Nat} (hk : k < W) (rot : Nat) : rotr32 k rot < W := by
  rw [rotr32, W_eq] at *
  exact Nat.or_lt_two_pow (Nat.lt_of_le_of_lt (shr32_le k _) hk)
    (W_eq ▸ shl32_lt k _)

theorem xor32_lt {a b : Nat} (ha : a < W) (hb : b < W) : a ^^^ b < W := by
  rw [W_eq] at *
  exact Nat.xor_lt_two_pow ha hb

theorem xor_cancel (a b : Nat) : a ^^^ b ^^^ b = a := by
  rw [Nat.xor_assoc, Nat.xor_self, Nat.xor_zero]

theorem sub32_add32 {a b : Nat} (ha : a < W) (hb : b < W) :
    sub32 (add32 a b) b = a := by
  unfold sub32 add32 W at *
  omega

theorem sub32_32 {s : Nat} (hs : s ≤ 32) : sub32 32 s = 32 - s := by
  unfold sub32 W
  omega

theorem two_pow_split {t : Nat} (ht : t ≤ 32) : 2 ^ t * 2 ^ (32 - t) = W := by
  rw [W_eq, ← pow_add]
  congr 1
  omega

theorem shl32_32 (x : Nat) : shl32 x 32 = 0 := by
  rw [shl32, Nat.min_self, Nat.shiftLeft_eq, W_eq]
  exact Nat.mul_mod_left x (2 ^ 32)

theorem shr32_zero (x : Nat) : shr32 x 0 = x := by
  rw [shr32]
  norm_num

theorem rotl32_32 {x : Nat} (_hx : x < W) : rotl32 x 32 = x := by
  rw [rotl32, sub32_32 (by omega), shl32_32]
  norm_num [shr32_zero]

theorem rotL_32 {x : Nat} (hx : x < W) : Spec.rotL x 32 = x := by
  have hx2 : x < 4294967296 := hx
  simp only [Spec.rotL, W]
  norm_num
  omega

theorem shr32_32 {x : Nat} (hx : x < W) : shr32 x 32 = 0 := by
  rw [shr32, Nat.min_self, Nat.shiftRight_eq_div_pow]
  exact Nat.div_eq_of_lt hx

theorem shl32_zero {x : Nat} (hx : x < W) : shl32 x 0 = x := by
  rw [shl32]
  norm_num
  exact Nat.mod_eq_of_lt hx

theorem rotr32_32 {x : Nat} (hx : x < W) : rotr32 x 32 = x := by
  rw [rotr32, sub32_32 (by omega), shr32_32 hx, shl32_zero hx]
  norm_num

theorem rotR_32 {x : Nat} (hx : x < W) : Spec.rotR x 32 = x := by
  have hx2 : x < 4294967296 := hx
  simp only [Spec.rotR, W]
  norm_num

/-- For amounts up to 32, `rotl32` is the circular left shift of the spec. -/
theorem rotl32_eq_rotL {x s : Nat} (hx : x < W) (hs : s ≤ 32) :
    rotl32 x s = Spec.rotL x s := by
  rcases Nat.lt_or_ge s 32 with h32 | h32
  · have hmin1 : min s 32 = s := by omega
    have hmin2 : min (32 - s) 32 = 32 - s := by omega
    rw [rotl32, shl32, shr32, sub32_32 hs, hmin1, hmin2,
        Nat.shiftLeft_eq, Nat.shiftRight_eq_div_pow]
    have hdvd : 2 ^ s ∣ x * 2 ^ s % W := by
      rw [Nat.dvd_mod_iff (W_eq ▸ pow_dvd_pow 2 (by omega : s ≤ 32))]
      exact dvd_mul_left _ _
    have hlt : x / 2 ^ (32 - s) < 2 ^ s := by
      rw [Nat.div_lt_iff_lt_mul (Nat.two_pow_pos _)]
      calc x < W := hx
        _ = 2 ^ s * 2 ^ (32 - s) := (two_pow_split hs).symm
    rw [lor_eq_add hdvd hlt, Spec.rotL, Nat.mod_eq_of_lt h32]
  · have hs32 : s = 32 := by omega
    subst hs32
    rw [rotl32_32 hx, rotL_32 hx]

/-- For amounts up to 32, `rotr32` is the circular right shift of the spec. -/
theorem rotr32_eq_rotR {x s : Nat} (hx : x < W) (hs : s ≤ 32) :
    rotr32 x s = Spec.rotR x s := by
  rcases Nat.lt_or_ge s 32 with h32 | h32
  · have hmin1 : min s 32 = s := by omega
    have hmin2 : min (32 - s) 32 = 32 - s := by omega
    rw [rotr32, shl32, shr32, sub32_32 hs, hmin1, hmin2,
        Nat.shiftLeft_eq, Nat.shiftRight_eq_div_pow]
    have hdvd : 2 ^ (32 - s) ∣ x * 2 ^ (32 - s) % W := by
      rw [Nat.dvd_mod_iff (W_eq ▸ pow_dvd_pow 2 (by omega : 32 - s ≤ 32))]
      exact dvd_mul_left _ _
    have hlt : x / 2 ^ s < 2 ^ (32 - s) := by
      rw [Nat.div_lt_iff_lt_mul (Nat.two_pow_pos _)]
      calc x < W := hx
        _ = 2 ^ (32 - s) * 2 ^ s := by
              rw [Nat.mul_comm]
              exact (two_pow_split hs).symm
    rw [Nat.lor_comm, lor_eq_add hdvd hlt, Spec.rotR, Nat.mod_eq_of_lt h32]
    omega
  · have hs32 : s = 32 := by omega
    subst hs32
    rw [rotr32_32 hx, rotR_32 hx]

/-- The spec's right rotation undoes the spec's left rotation. -/
theorem rotR_rotL {x : Nat} (hx : x < W) (s : Nat) :
    Spec.rotR (Spec.rotL x s) s = x := by
  have ht : s % 32 < 32 := Nat.mod_lt _ (by norm_num)
  have hab : 2 ^ (s % 32) * 2 ^ (32 - s % 32) = W := two_pow_split (by omega)
  have hapos : 0 < 2 ^ (s % 32) := Nat.two_pow_pos _
  have hbpos : 0 < 2 ^ (32 - s % 32) := Nat.two_pow_pos _
  set a := 2 ^ (s % 32) with ha
  set b := 2 ^ (32 - s % 32) with hb
  set q := x / b with hqdef
  set m := x % b with hmdef
  have hq : q < a := by
    rw [hqdef, Nat.div_lt_iff_lt_mul hbpos]
    calc x < W := hx
      _ = a * b := hab.symm
  have hm : m < b := Nat.mod_lt _ hbpos
  have hdecomp : b * q + m = x := Nat.div_add_mod x b
  have hma : m * a < W := by
    calc m * a < b * a := Nat.mul_lt_mul_of_lt_of_le hm (Nat.le_refl a) hapos
      _ = W := by rw [Nat.mul_comm]; exact hab
  have hqb : q * b < W := by
    calc q * b < a * b := Nat.mul_lt_mul_of_lt_of_le hq (Nat.le_refl b) hbpos
      _ = W := hab
  have step1 : x * a % W = m * a := by
    have e1 : x * a = W * q + m * a := by
      calc x * a = (b * q + m) * a := by rw [hdecomp]
        _ = q * (a * b) + m * a := by ring
        _ = W * q + m * a := by rw [hab]; ring
    rw [e1, Nat.mul_add_mod W q (m * a)]
    exact Nat.mod_eq_of_lt hma
  have hrotL : Spec.rotL x s = m * a + q := by
    rw [Spec.rotL, ← ha, ← hb, ← hqdef, step1]
  have step2 : (m * a + q) / a = m := by
    rw [Nat.mul_comm m a, Nat.mul_add_div hapos, Nat.div_eq_of_lt hq, Nat.add_zero]
  have step3 : (m * a + q) * b % W = q * b := by
    have e2 : (m * a + q) * b = W * m + q * b := by
      calc (m * a + q) * b = m * (a * b) + q * b := by ring
        _ = W * m + q * b := by rw [hab]; ring
    rw [e2, Nat.mul_add_mod W m (q * b)]
    exact Nat.mod_eq_of_lt hqb
  rw [hrotL, Spec.rotR, ← ha, ← hb, step2, step3, Nat.mul_comm q b]
  omega

/-- For amounts below 32 and 32-bit words, `rotr32` undoes `rotl32`. -/
theorem rotr32_rotl32 {x r : Nat} (hx : x < W) (hr : r < 32) :
    rotr32 (rotl32 x r) r = x := by
  have h1 : rotl32 x r < W := rotl32_lt hx r
  have h2 : Spec.rotL x r < W := by
    rw [← rotl32_eq_rotL hx (by omega)]
    exact h1
  rw [rotl32_eq_rotL hx (by omega), rotr32_eq_rotR h2 (by omega)]
  exact rotR_rotL hx r

/-! ### Round-loop lemmas -/

theorem encRounds_bounds (rk : List Nat) :
    ∀ r kidx A B, A < W → B < W →
      (encRounds rk r kidx A B).1 < W ∧ (encRounds rk r kidx A B).2 < W := by
  intro r
  induction r with
  | zero =>
    intro kidx A B hA hB
    exact ⟨hA, hB⟩
  | succ r ih =>
    intro kidx A B hA hB
    simp only [encRounds]
    exact ih _ _ _ (add32_lt _ _) (add32_lt _ _)

theorem encRounds_succ_eq (rk : List Nat) (r kidx A B : Nat) :
    encRounds rk (r + 1) kidx A B =
      encRounds rk r (kidx + 2) (encRounds rk 1 kidx A B).1
        (encRounds rk 1 kidx A B).2 := rfl

theorem decRounds_succ_eq (rk : List Nat) (r kidx A B : Nat) :
    decRounds rk (r + 1) kidx A B =
      decRounds rk r (kidx - 2) (decRounds rk 1 kidx A B).1
        (decRounds rk 1 kidx A B).2 := rfl

/-- Peeling the last round off a run of inverse rounds. -/
theorem decRounds_snoc (rk : List Nat) :
    ∀ r S A B, 2 * r ≤ S →
      decRounds rk (r + 1) S A B =
        decRounds rk 1 (S - 2 * r) (decRounds rk r S A B).1
          (decRounds rk r S A B).2 := by
  intro r
  induction r with
  | zero =>
    intro S A B _
    simp [decRounds]
  | succ r ih =>
    intro S A B hS
    rw [decRounds_succ_eq rk (r + 1) S A B]
    rw [ih (S - 2) _ _ (by omega)]
    rw [show S - 2 - 2 * r = S - 2 * (r + 1) by omega]
    rw [decRounds_succ_eq rk r S A B]

/-- One inverse round undoes one forward round. -/
theorem decRounds_one_inv (rk : List Nat) (m A B : Nat) (hA : A < W) (hB : B < W)
    (hk0 : rk.getD m 0 < W) (hk1 : rk.getD (m + 1) 0 < W) :
    decRounds rk 1 m (encRounds rk 1 m A B).1 (encRounds rk 1 m A B).2 = (A, B) := by
  have hAB : A ^^^ B < W := xor32_lt hA hB
  have key : ∀ a2 b2, a2 = add32 (rotl32 (A ^^^ B) (B % 32)) (rk.getD m 0) →
      b2 = add32 (rotl32 (B ^^^ a2) (a2 % 32)) (rk.getD (m + 1) 0) →
      (rotr32 (sub32 a2 (rk.getD m 0))
          ((rotr32 (sub32 b2 (rk.getD (m + 1) 0)) (a2 % 32) ^^^ a2) % 32) ^^^
          (rotr32 (sub32 b2 (rk.getD (m + 1) 0)) (a2 % 32) ^^^ a2),
        rotr32 (sub32 b2 (rk.getD (m + 1) 0)) (a2 % 32) ^^^ a2) = (A, B) := by
    intro a2 b2 ha2 hb2
    have hA2lt : a2 < W := by
      rw [ha2]
      exact add32_lt _ _
    have hBA2 : B ^^^ a2 < W := xor32_lt hB hA2lt
    have hb2s : sub32 b2 (rk.getD (m + 1) 0) = rotl32 (B ^^^ a2) (a2 % 32) := by
      rw [hb2]
      exact sub32_add32 (rotl32_lt hBA2 _) hk1
    have hBrec : rotr32 (sub32 b2 (rk.getD (m + 1) 0)) (a2 % 32) ^^^ a2 = B := by
      rw [hb2s, rotr32_rotl32 hBA2 (Nat.mod_lt _ (by norm_num)), xor_cancel]
    rw [hBrec]
    have ha2s : sub32 a2 (rk.getD m 0) = rotl32 (A ^^^ B) (B % 32) := by
      rw [ha2]
      exact sub32_add32 (rotl32_lt hAB _) hk0
    have hArec : rotr32 (sub32 a2 (rk.getD m 0)) (B % 32) ^^^ B = A := by
      rw [ha2s, rotr32_rotl32 hAB (Nat.mod_lt _ (by norm_num)), xor_cancel]
    rw [hArec]
  exact key _ _ rfl rfl

/-- Running the 12 inverse rounds from key index `kidx + 2r` undoes the
forward rounds run from key index `kidx + 2`. -/
theorem decRounds_encRounds (rk : List Nat) (hrk : ∀ n, rk.getD n 0 < W) :
    ∀ r kidx A B, A < W → B < W →
      decRounds rk r (kidx + 2 * r) (encRounds rk r (kidx + 2) A B).1
        (encRounds rk r (kidx + 2) A B).2 = (A, B) := by
  intro r
  induction r with
  | zero =>
    intro kidx A B hA hB
    simp [encRounds, decRounds]
  | succ r ih =>
    intro kidx A B hA hB
    rw [encRounds_succ_eq rk r (kidx + 2) A B]
    rw [decRounds_snoc rk r (kidx + 2 * (r + 1)) _ _ (by omega)]
    have hP := encRounds_bounds rk 1 (kidx + 2) A B hA hB
    have hinner := ih (kidx + 2) (encRounds rk 1 (kidx + 2) A B).1
      (encRounds rk 1 (kidx + 2) A B).2 hP.1 hP.2
    rw [show kidx + 2 * (r + 1) = kidx + 2 + 2 * r by omega]
    rw [hinner]
    rw [show kidx + 2 + 2 * r - 2 * r = kidx + 2 by omega]
    exact decRounds_one_inv rk (kidx + 2) A B hA hB (hrk (kidx + 2)) (hrk (kidx + 3))

/-! ### Schedule bounds -/

theorem skeytable_lt : ∀ x ∈ skeytable, x < W := by decide

theorem mixLoop_mem_lt :
    ∀ k rk L A B i j, (∀ x ∈ rk, x < W) → ∀ x ∈ mixLoop k rk L A B i j, x < W := by
  intro k
  induction k with
  | zero =>
    intro rk L A B i j h
    simpa [mixLoop] using h
  | succ k ih =>
    intro rk L A B i j h
    simp only [mixLoop]
    apply ih
    intro x hx
    rcases List.mem_or_eq_of_mem_set hx with h1 | h2
    · exact h x h1
    · rw [h2]
      exact rotl32_lt (add32_lt _ _) _

theorem New_ok_bound {key rk : List Nat} (h : New key = Except.ok rk) :
    ∀ x ∈ rk, x < W := by
  unfold New at h
  by_cases hl : key.length ≠ 16
  · simp [hl] at h
  · simp [hl] at h
    rw [← h]
    exact mixLoop_mem_lt _ _ _ _ _ _ _ skeytable_lt

/-! ### Byte packing lemmas -/

theorem p8 : (2 : Nat) ^ 8 = 256 := by norm_num

theorem p16 : (2 : Nat) ^ 16 = 65536 := by norm_num

theorem p24 : (2 : Nat) ^ 24 = 16777216 := by norm_num

theorem lor_add_pow (r : Nat) {a b : Nat} (ha : 2 ^ r ∣ a) (hb : b < 2 ^ r) :
    b ||| a = b + a := by
  rw [Nat.lor_comm, lor_eq_add ha hb]
  omega

theorem le_bytes_lor {b0 b1 b2 b3 : Nat} (h0 : b0 < 256) (h1 : b1 < 256)
    (h2 : b2 < 256) (h3 : b3 < 256) :
    b0 ||| b1 <<< 8 ||| b2 <<< 16 ||| b3 <<< 24 =
      b0 + 256 * b1 + 65536 * b2 + 16777216 * b3 := by
  rw [Nat.shiftLeft_eq, Nat.shiftLeft_eq, Nat.shiftLeft_eq, p8, p16, p24]
  have e1 : b0 ||| b1 * 256 = b0 + b1 * 256 :=
    lor_add_pow 8 (by rw [p8]; exact Nat.dvd_mul_left 256 b1) (by rw [p8]; omega)
  rw [e1]
  have e2 : b0 + b1 * 256 ||| b2 * 65536 = b0 + b1 * 256 + b2 * 65536 :=
    lor_add_pow 16 (by rw [p16]; exact Nat.dvd_mul_left 65536 b2) (by rw [p16]; omega)
  rw [e2]
  have e3 : b0 + b1 * 256 + b2 * 65536 ||| b3 * 16777216 =
      b0 + b1 * 256 + b2 * 65536 + b3 * 16777216 :=
    lor_add_pow 24 (by rw [p24]; exact Nat.dvd_mul_left 16777216 b3) (by rw [p24]; omega)
  rw [e3]
  ring

theorem getUint32_eq_leWord {b : List Nat} (hb : ∀ x ∈ b, x < 256) :
    getUint32 b = Spec.leWord b := by
  have g0 := getD_lt_of_forall (n := 0) hb (by norm_num)
  have g1 := getD_lt_of_forall (n := 1) hb (by norm_num)
  have g2 := getD_lt_of_forall (n := 2) hb (by norm_num)
  have g3 := getD_lt_of_forall (n := 3) hb (by norm_num)
  rw [getUint32, Spec.leWord, le_bytes_lor g0 g1 g2 g3]

theorem getUint32_lt {b : List Nat} (hb : ∀ x ∈ b, x < 256) : getUint32 b < W := by
  have g0 := getD_lt_of_forall (n := 0) hb (by norm_num)
  have g1 := getD_lt_of_forall (n := 1) hb (by norm_num)
  have g2 := getD_lt_of_forall (n := 2) hb (by norm_num)
  have g3 := getD_lt_of_forall (n := 3) hb (by norm_num)
  rw [getUint32_eq_leWord hb, Spec.leWord, W]
  omega

theorem exists_eight {l : List Nat} (h : l.length = 8) :
    ∃ a0 a1 a2 a3 a4 a5 a6 a7, l = [a0, a1, a2, a3, a4, a5, a6, a7] := by
  obtain ⟨a0, l0, rfl⟩ := List.exists_of_length_succ l h
  have h0 : l0.length = 7 := by rw [List.length_cons] at h; omega
  obtain ⟨a1, l1, rfl⟩ := List.exists_of_length_succ l0 h0
  have h1 : l1.length = 6 := by rw [List.length_cons] at h0; omega
  obtain ⟨a2, l2, rfl⟩ := List.exists_of_length_succ l1 h1
  have h2 : l2.length = 5 := by rw [List.length_cons] at h1; omega
  obtain ⟨a3, l3, rfl⟩ := List.exists_of_length_succ l2 h2
  have h3 : l3.length = 4 := by rw [List.length_cons] at h2; omega
  obtain ⟨a4, l4, rfl⟩ := List.exists_of_length_succ l3 h3
  have h4 : l4.length = 3 := by rw [List.length_cons] at h3; omega
  obtain ⟨a5, l5, rfl⟩ := List.exists_of_length_succ l4 h4
  have h5 : l5.length = 2 := by rw [List.length_cons] at h4; omega
  obtain ⟨a6, l6, rfl⟩ := List.exists_of_length_succ l5 h5
  have h6 : l6.length = 1 := by rw [List.length_cons] at h5; omega
  obtain ⟨a7, l7, rfl⟩ := List.exists_of_length_succ l6 h6
  have h7 : l7.length = 0 := by rw [List.length_cons] at h6; omega
  obtain rfl := List.length_eq_zero.mp h7
  exact ⟨a0, a1, a2, a3, a4, a5, a6, a7, rfl⟩

theorem putPair_eq {dst : List Nat} (h : dst.length = 8) (vA vB : Nat) :
    putUint32At (putUint32At dst 0 vA) 4 vB = Spec.u32LE vA ++ Spec.u32LE vB := by
  obtain ⟨a0, a1, a2, a3, a4, a5, a6, a7, rfl⟩ := exists_eight h
  simp [putUint32At, Spec.u32LE, Nat.shiftRight_eq_div_pow]

theorem putPairRev_eq {dst : List Nat} (h : dst.length = 8) (vA vB : Nat) :
    putUint32At (putUint32At dst 4 vB) 0 vA = Spec.u32LE vA ++ Spec.u32LE vB := by
  obtain ⟨a0, a1, a2, a3, a4, a5, a6, a7, rfl⟩ := exists_eight h
  simp [putUint32At, Spec.u32LE, Nat.shiftRight_eq_div_pow]

theorem getUint32_u32LE_append {v : Nat} (hv : v < W) (rest : List Nat) :
    getUint32 (Spec.u32LE v ++ rest) = v := by
  have hv2 : v < 4294967296 := hv
  simp only [Spec.u32LE, List.cons_append, List.nil_append, getUint32,
    List.getD_cons_zero, List.getD_cons_succ]
  rw [le_bytes_lor (by omega) (by omega) (by omega) (by omega)]
  omega

theorem drop4_u32LE_append (vA : Nat) (rest : List Nat) :
    (Spec.u32LE vA ++ rest).drop 4 = rest := by
  simp [Spec.u32LE]

theorem u32LE_getUint32 {p : List Nat} (h8 : p.length = 8)
    (hb : ∀ x ∈ p, x < 256) :
    Spec.u32LE (getUint32 p) ++ Spec.u32LE (getUint32 (p.drop 4)) = p := by
  obtain ⟨a0, a1, a2, a3, a4, a5, a6, a7, rfl⟩ := exists_eight h8
  simp only [List.mem_cons, List.not_mem_nil, or_false, forall_eq_or_imp, forall_eq] at hb
  obtain ⟨h0, h1, h2, h3, h4, h5, h6, h7⟩ := hb
  have g1 : getUint32 [a0, a1, a2, a3, a4, a5, a6, a7] =
      a0 + 256 * a1 + 65536 * a2 + 16777216 * a3 := by
    simp only [getUint32, List.getD_cons_zero, List.getD_cons_succ]
    exact le_bytes_lor h0 h1 h2 h3
  have g2 : getUint32 [a4, a5, a6, a7] = a4 + 256 * a5 + 65536 * a6 + 16777216 * a7 := by
    simp only [getUint32, List.getD_cons_zero, List.getD_cons_succ]
    exact le_bytes_lor h4 h5 h6 h7
  rw [show ([a0, a1, a2, a3, a4, a5, a6, a7] : List Nat).drop 4 = [a4, a5, a6, a7] from rfl]
  rw [g1, g2]
  simp only [Spec.u32LE, List.cons_append, List.nil_append, List.cons.injEq, and_true]
  omega

/-! ### Whole-transform characterizations -/

theorem getUint32_u32LE {v : Nat} (hv : v < W) : getUint32 (Spec.u32LE v) = v := by
  have h := getUint32_u32LE_append hv []
  simpa using h

theorem Encrypt_eq (rk d src : List Nat) (hd : d.length = 8) :
    Encrypt rk d src =
      Spec.u32LE (encRounds rk rounds 2 (add32 (getUint32 src) (rk.getD 0 0))
          (add32 (getUint32 (src.drop 4)) (rk.getD 1 0))).1 ++
      Spec.u32LE (encRounds rk rounds 2 (add32 (getUint32 src) (rk.getD 0 0))
          (add32 (getUint32 (src.drop 4)) (rk.getD 1 0))).2 :=
  putPair_eq hd _ _

theorem Decrypt_eq (rk d src : List Nat) (hd : d.length = 8) :
    Decrypt rk d src =
      Spec.u32LE (sub32 (decRounds rk rounds (2 * rounds) (getUint32 src)
          (getUint32 (src.drop 4))).1 (rk.getD 0 0)) ++
      Spec.u32LE (sub32 (decRounds rk rounds (2 * rounds) (getUint32 src)
          (getUint32 (src.drop 4))).2 (rk.getD 1 0)) :=
  putPairRev_eq hd _ _

theorem decRounds_encRounds12 (rk : List Nat) (hrk : ∀ n, rk.getD n 0 < W)
    {A B : Nat} (hA : A < W) (hB : B < W) :
    decRounds rk rounds (2 * rounds) (encRounds rk rounds 2 A B).1
      (encRounds rk rounds 2 A B).2 = (A, B) := by
  have h := decRounds_encRounds rk hrk 12 0 A B hA hB
  norm_num at h
  exact h

/-- Round trip at the level of an arbitrary schedule of 32-bit words. -/
theorem roundtrip_core {rk p d1 d2 : List Nat} (hrk : ∀ x ∈ rk, x < W)
    (hp8 : p.length = 8) (hpb : ∀ x ∈ p, x < 256)
    (h1 : d1.length = 8) (h2 : d2.length = 8) :
    Decrypt rk d2 (Encrypt rk d1 p) = p := by
  have hrkD : ∀ n, rk.getD n 0 < W := fun n => getD_lt_of_forall hrk W_pos
  have hgp : getUint32 p < W := getUint32_lt hpb
  have hgp4 : getUint32 (p.drop 4) < W :=
    getUint32_lt (fun x hx => hpb x (List.mem_of_mem_drop hx))
  have hA0 : add32 (getUint32 p) (rk.getD 0 0) < W := add32_lt _ _
  have hB0 : add32 (getUint32 (p.drop 4)) (rk.getD 1 0) < W := add32_lt _ _
  have hEb := encRounds_bounds rk rounds 2 _ _ hA0 hB0
  rw [Encrypt_eq rk d1 p h1, Decrypt_eq rk d2 _ h2]
  rw [getUint32_u32LE_append hEb.1 _, drop4_u32LE_append, getUint32_u32LE hEb.2]
  have h12 := decRounds_encRounds12 rk hrkD hA0 hB0
  have e1 := congrArg Prod.fst h12
  have e2 := congrArg Prod.snd h12
  simp only [Prod.fst, Prod.snd] at e1 e2
  rw [e1, e2, sub32_add32 hgp (hrkD 0), sub32_add32 hgp4 (hrkD 1)]
  exact u32LE_getUint32 hp8 hpb

end RC5

open RC5 in
/-- The loop of source `Encrypt` agrees with the spec's round recursion
when the key index tracks `2 * r`. -/
theorem encRounds_eq_encIter (rk : List Nat) :
    ∀ n r A B, A < W → B < W →
      RC5.encRounds rk n (2 * r) A B = Spec.encIter rk n r A B := by
  intro n
  induction n with
  | zero =>
    intro r A B _ _
    rfl
  | succ n ih =>
    intro r A B hA hB
    simp only [RC5.encRounds, Spec.encIter, Spec.encRound]
    rw [rotl32_eq_rotL (xor32_lt hA hB) (by omega)]
    rw [rotl32_eq_rotL (xor32_lt hB (add32_lt _ _)) (by omega)]
    rw [show 2 * r + 2 = 2 * (r + 1) by ring]
    exact ih (r + 1) _ _ (add32_lt _ _) (add32_lt _ _)

open RC5 in
/-- The loop of source `Decrypt` agrees with the spec's round recursion
when the key index tracks `2 * r`. -/
theorem decRounds_eq_decIter (rk : List Nat) :
    ∀ n r A B, RC5.decRounds rk n (2 * r) A B = Spec.decIter rk n r A B := by
  intro n
  induction n with
  | zero =>
    intro r A B
    rfl
  | succ n ih =>
    intro r A B
    simp only [RC5.decRounds, Spec.decIter, Spec.decRound]
    rw [rotr32_eq_rotR (sub32_lt _ _) (by omega)]
    rw [rotr32_eq_rotR (sub32_lt _ _) (by omega)]
    rw [show 2 * r - 2 = 2 * (r - 1) by omega]
    exact ih (r - 1) _ _

open RC5 in
/-- The mixing loop of source `New` agrees with the spec's mixing loop. -/
theorem mixLoop_eq_mixIter :
    ∀ k rk L A B i j, RC5.mixLoop k rk L A B i j = Spec.mixIter k rk L A B i j := by
  intro k
  induction k with
  | zero =>
    intro rk L A B i j
    rfl
  | succ k ih =>
    intro rk L A B i j
    simp only [RC5.mixLoop, Spec.mixIter]
    rw [rotl32_eq_rotL (add32_lt _ _) (by omega)]
    rw [rotl32_eq_rotL (add32_lt _ _) (by omega)]
    rw [show roundKeys = 26 from rfl, show keyWords = 4 from rfl]
    exact ih _ _ _ _ _ _

open RC5 in
theorem rotl32_zero {x : Nat} (hx : x < W) : RC5.rotl32 x 0 = x := by
  rw [RC5.rotl32, sub32_32 (by omega), shl32_zero hx, Nat.sub_zero, shr32_32 hx]
  norm_num

open RC5 in
theorem rotr32_zero {x : Nat} (hx : x < W) : RC5.rotr32 x 0 = x := by
  rw [RC5.rotr32, sub32_32 (by omega), shr32_zero, Nat.sub_zero, shl32_32]
  norm_num

open RC5 in
/-- `bits.RotateLeft32` with a nonnegative amount is `rotl32` by the
amount reduced mod 32. -/
theorem rotateLeft32_coe {x : Nat} (k : Nat) (hx : x < W) :
    RC5u.RotateLeft32 x (k : Int) = RC5.rotl32 x (k % 32) := by
  have hs : ((k : Int) % 32).toNat = k % 32 := by omega
  simp only [RC5u.RotateLeft32, hs]
  rw [RC5.rotl32, RC5.shl32, RC5.shr32, sub32_32 (by omega : k % 32 ≤ 32)]
  rw [show min (k % 32) 32 = k % 32 by omega,
      show min (32 - k % 32) 32 = 32 - k % 32 by omega]

open RC5 in
/-- `bits.RotateLeft32` with a negated amount is `rotr32` by the amount
reduced mod 32. -/
theorem rotateLeft32_neg {x : Nat} (a : Nat) (hx : x < W) :
    RC5u.RotateLeft32 x (-(a : Int)) = RC5.rotr32 x (a % 32) := by
  rcases Nat.eq_zero_or_pos (a % 32) with h0 | hpos
  · have hs : ((-(a : Int)) % 32).toNat = 0 := by omega
    simp only [RC5u.RotateLeft32, hs, h0]
    rw [rotr32_zero hx, Nat.sub_zero]
    have h1 : (x <<< 0) % W = x := by
      rw [Nat.shiftLeft_eq, pow_zero, Nat.mul_one]
      exact Nat.mod_eq_of_lt hx
    have h2 : x >>> 32 = 0 := by
      rw [Nat.shiftRight_eq_div_pow]
      exact Nat.div_eq_of_lt (W_eq ▸ hx)
    rw [h1, h2]
    norm_num
  · have hs : ((-(a : Int)) % 32).toNat = 32 - a % 32 := by omega
    simp only [RC5u.RotateLeft32, hs]
    rw [show 32 - (32 - a % 32) = a % 32 by omega]
    rw [RC5.rotr32, RC5.shr32, RC5.shl32, sub32_32 (by omega : a % 32 ≤ 32)]
    rw [show min (a % 32) 32 = a % 32 by omega,
        show min (32 - a % 32) 32 = 32 - a % 32 by omega]
    exact Nat.lor_comm _ _

open RC5 in
theorem rotateLeft32_three {x : Nat} (hx : x < W) :
    RC5u.RotateLeft32 x 3 = RC5.rotl32 x 3 := by
  have h := rotateLeft32_coe 3 hx
  norm_num at h
  exact h

open RC5 in
theorem mixLoop_agrees :
    ∀ k rk L A B i j, RC5.mixLoop k rk L A B i j = RC5u.mixLoop k rk L A B i j := by
  intro k
  induction k with
  | zero =>
    intro rk L A B i j
    rfl
  | succ k ih =>
    intro rk L A B i j
    simp only [RC5.mixLoop, RC5u.mixLoop]
    rw [rotateLeft32_three (add32_lt _ _)]
    rw [rotateLeft32_coe _ (add32_lt _ _)]
    exact ih _ _ _ _ _ _

open RC5 in
theorem encRounds_agrees (rk : List Nat) :
    ∀ n kidx A B, A < W → B < W →
      RC5.encRounds rk n kidx A B = RC5u.encRounds rk n kidx A B := by
  intro n
  induction n with
  | zero =>
    intro kidx A B _ _
    rfl
  | succ n ih =>
    intro kidx A B hA hB
    simp only [RC5.encRounds, RC5u.encRounds]
    rw [rotateLeft32_coe _ (xor32_lt hA hB)]
    rw [rotateLeft32_coe _ (xor32_lt hB (add32_lt _ _))]
    exact ih _ _ _ (add32_lt _ _) (add32_lt _ _)

open RC5 in
theorem decRounds_agrees (rk : List Nat) :
    ∀ n kidx A B, RC5.decRounds rk n kidx A B = RC5u.decRounds rk n kidx A B := by
  intro n
  induction n with
  | zero =>
    intro kidx A B
    rfl
  | succ n ih =>
    intro kidx A B
    simp only [RC5.decRounds, RC5u.decRounds]
    rw [rotateLeft32_neg _ (sub32_lt _ _)]
    rw [rotateLeft32_neg _ (sub32_lt _ _)]
    exact ih _ _ _

open RC5 in
theorem getUint32_take (l : List Nat) : RC5.getUint32 (l.take 4) = RC5.getUint32 l := by
  have h : ∀ i : Nat, i < 4 → (l.take 4).getD i 0 = l.getD i 0 := by
    intro i hi
    rw [List.getD_eq_getElem?_getD, List.getD_eq_getElem?_getD,
        List.getElem?_take_of_lt hi]
  rw [RC5.getUint32, RC5.getUint32, h 0 (by norm_num), h 1 (by norm_num),
      h 2 (by norm_num), h 3 (by norm_num)]

open RC5 in
theorem New_agrees (key : List Nat) : RC5.New key = RC5u.New key := by
  rw [RC5.New, RC5u.New]
  by_cases h : key.length ≠ 16
  · rw [if_pos h, if_pos h]
  · rw [if_neg h, if_neg h]
    simp only [mixLoop_agrees, getUint32_take]

open RC5 in
theorem Encrypt_agrees (rk dst src : List Nat) :
    RC5.Encrypt rk dst src = RC5u.Encrypt rk dst src := by
  simp only [RC5.Encrypt, RC5u.Encrypt]
  rw [getUint32_take src, getUint32_take (src.drop 4)]
  rw [encRounds_agrees rk rounds 2 _ _ (add32_lt _ _) (add32_lt _ _)]

open RC5 in
theorem Decrypt_agrees (rk dst src : List Nat) :
    RC5.Decrypt rk dst src = RC5u.Decrypt rk dst src := by
  simp only [RC5.Decrypt, RC5u.Decrypt]
  rw [getUint32_take src, getUint32_take (src.drop 4)]
  rw [decRounds_agrees rk rounds (2 * rounds) _ _]

/-- In-place encryption over one buffer gives the bytes a fresh-destination
call would produce. -/
theorem EncryptMem_alias {rk p d : List Nat} (hp : p.length = 8) (hd : d.length = 8) :
    RC5.EncryptMem rk p 0 0 = RC5.Encrypt rk d p := by
  simp only [RC5.EncryptMem, RC5.Encrypt, List.drop_zero, Nat.zero_add]
  rw [RC5.putPair_eq hp _ _, RC5.putPair_eq hd _ _]

/-- In-place decryption over one buffer gives the bytes a fresh-destination
call would produce. -/
theorem DecryptMem_alias {rk p d : List Nat} (hp : p.length = 8) (hd : d.length = 8) :
    RC5.DecryptMem rk p 0 0 = RC5.Decrypt rk d p := by
  simp only [RC5.DecryptMem, RC5.Decrypt, List.drop_zero, Nat.zero_add]
  rw [RC5.putPairRev_eq hp _ _, RC5.putPairRev_eq hd _ _]

/-- Encrypt never writes a destination byte at index 8 or beyond. -/
theorem Encrypt_frame {rk dst src : List Nat} {i : Nat} (hi : 8 ≤ i) :
    (RC5.Encrypt rk dst src)[i]? = dst[i]? := by
  simp only [RC5.Encrypt, RC5.putUint32At]
  rw [List.getElem?_set_ne (by omega), List.getElem?_set_ne (by omega),
      List.getElem?_set_ne (by omega), List.getElem?_set_ne (by omega),
      List.getElem?_set_ne (by omega), List.getElem?_set_ne (by omega),
      List.getElem?_set_ne (by omega), List.getElem?_set_ne (by omega)]

/-- Decrypt never writes a destination byte at index 8 or beyond. -/
theorem Decrypt_frame {rk dst src : List Nat} {i : Nat} (hi : 8 ≤ i) :
    (RC5.Decrypt rk dst src)[i]? = dst[i]? := by
  simp only [RC5.Decrypt, RC5.putUint32At]
  rw [List.getElem?_set_ne (by omega), List.getElem?_set_ne (by omega),
      List.getElem?_set_ne (by omega), List.getElem?_set_ne (by omega),
      List.getElem?_set_ne (by omega), List.getElem?_set_ne (by omega),
      List.getElem?_set_ne (by omega), List.getElem?_set_ne (by omega)]

theorem take8_getElem {s1 s2 : List Nat} (h : s1.take 8 = s2.take 8) :
    ∀ i : Nat, i < 8 → s1[i]? = s2[i]? := by
  intro i hi
  rw [← List.getElem?_take_of_lt hi, h, List.getElem?_take_of_lt hi]

theorem take8_getUint32 {s1 s2 : List Nat} (h : s1.take 8 = s2.take 8) :
    RC5.getUint32 s1 = RC5.getUint32 s2 ∧
    RC5.getUint32 (s1.drop 4) = RC5.getUint32 (s2.drop 4) := by
  have hD := take8_getElem h
  have hgetD : ∀ i : Nat, i < 8 → s1.getD i 0 = s2.getD i 0 := by
    intro i hi
    rw [List.getD_eq_getElem?_getD, List.getD_eq_getElem?_getD, hD i hi]
  have hD4 : ∀ i : Nat, i < 4 → (s1.drop 4).getD i 0 = (s2.drop 4).getD i 0 := by
    intro i hi
    rw [List.getD_eq_getElem?_getD, List.getD_eq_getElem?_getD,
        List.getElem?_drop, List.getElem?_drop, hD (4 + i) (by omega)]
  constructor
  · rw [RC5.getUint32, RC5.getUint32, hgetD 0 (by norm_num), hgetD 1 (by norm_num),
        hgetD 2 (by norm_num), hgetD 3 (by norm_num)]
  · rw [RC5.getUint32, RC5.getUint32, hD4 0 (by norm_num), hD4 1 (by norm_num),
        hD4 2 (by norm_num), hD4 3 (by norm_num)]

/-- Encrypt reads nothing of the source past index 7. -/
theorem Encrypt_take8 {rk dst s1 s2 : List Nat} (h : s1.take 8 = s2.take 8) :
    RC5.Encrypt rk dst s1 = RC5.Encrypt rk dst s2 := by
  obtain ⟨g1, g2⟩ := take8_getUint32 h
  simp only [RC5.Encrypt]
  rw [g1, g2]

/-- Decrypt reads nothing of the source past index 7. -/
theorem Decrypt_take8 {rk dst s1 s2 : List Nat} (h : s1.take 8 = s2.take 8) :
    RC5.Decrypt rk dst s1 = RC5.Decrypt rk dst s2 := by
  obtain ⟨g1, g2⟩ := take8_getUint32 h
  simp only [RC5.Decrypt]
  rw [g1, g2]

/-! ### The claims -/

/-- C1: for every 16-byte key and every 8-byte block `p`, decrypting the
encryption of `p` under the schedule produced by `New` returns `p`
(writing through any 8-byte destination buffers). -/
theorem claim_C1_roundtrip (key p d1 d2 rk : List Nat) (hkey : key.length = 16)
    (hp : p.length = 8) (hpb : ∀ x ∈ p, x < 256) (h1 : d1.length = 8)
    (h2 : d2.length = 8) (hnew : RC5.New key = Except.ok rk) :
    RC5.Decrypt rk d2 (RC5.Encrypt rk d1 p) = p :=
  RC5.roundtrip_core (RC5.New_ok_bound hnew) hp hpb h1 h2

set_option maxRecDepth 100000 in
/-- C1 witness: the round trip evaluated at the all-zero 16-byte key and
the block `[1,...,8]`. -/
theorem claim_C1_roundtrip_witness :
    (List.replicate 16 0 : List Nat).length = 16 ∧
    RC5.Decrypt
      [2612779208, 439875579, 1190717637, 1175216261, 1895316362, 676037379,
       1363022932, 4129418530, 824510045, 296237661, 3559352427, 1899681837,
       1266233241, 664380637, 2811239497, 3739125530, 918565270, 2817507913,
       1638370232, 990518571, 1304414838, 2920685927, 819424010, 1125720836,
       4140569649, 1694786432]
      (List.replicate 8 0)
      (RC5.Encrypt
        [2612779208, 439875579, 1190717637, 1175216261, 1895316362, 676037379,
         1363022932, 4129418530, 824510045, 296237661, 3559352427, 1899681837,
         1266233241, 664380637, 2811239497, 3739125530, 918565270, 2817507913,
         1638370232, 990518571, 1304414838, 2920685927, 819424010, 1125720836,
         4140569649, 1694786432]
        (List.replicate 8 0) [1, 2, 3, 4, 5, 6, 7, 8]) = [1, 2, 3, 4, 5, 6, 7, 8] :=
  ⟨by decide,
   claim_C1_roundtrip (List.replicate 16 0) [1, 2, 3, 4, 5, 6, 7, 8]
     (List.replicate 8 0) (List.replicate 8 0)
     [2612779208, 439875579, 1190717637, 1175216261, 1895316362, 676037379,
      1363022932, 4129418530, 824510045, 296237661, 3559352427, 1899681837,
      1266233241, 664380637, 2811239497, 3739125530, 918565270, 2817507913,
      1638370232, 990518571, 1304414838, 2920685927, 819424010, 1125720836,
      4140569649, 1694786432]
     (by decide) (by decide) (by decide) (by decide) (by decide) (by rfl)⟩

/-- C2: `Encrypt` computes exactly the algorithm of spec section 4.3 —
the two little-endian input words plus `schedule[0]`, `schedule[1]`,
twelve rounds `A = rotL(A xor B, B mod 32) + schedule[2r]` then
`B = rotL(B xor A, A mod 32) + schedule[2r+1]` with the new `A` feeding
B's update, and `A` then `B` written little-endian to the destination. -/
theorem claim_C2_encrypt_spec (rk dst src : List Nat) (hd : dst.length = 8)
    (hs : src.length = 8) (hb : ∀ x ∈ src, x < 256) :
    RC5.Encrypt rk dst src = Spec.encrypt rk src := by
  rw [RC5.Encrypt_eq rk dst src hd]
  simp only [Spec.encrypt]
  rw [RC5.getUint32_eq_leWord (b := src) hb,
      RC5.getUint32_eq_leWord (b := src.drop 4)
        (fun x hx => hb x (List.mem_of_mem_drop hx))]
  have h := encRounds_eq_encIter rk 12 1
      (RC5.add32 (Spec.leWord src) (rk.getD 0 0))
      (RC5.add32 (Spec.leWord (src.drop 4)) (rk.getD 1 0))
      (RC5.add32_lt _ _) (RC5.add32_lt _ _)
  rw [show 2 * 1 = 2 from rfl] at h
  rw [show RC5.rounds = 12 from rfl, h]

/-- C2 witness: Encrypt against the magic table as a schedule, on the
block `[1,...,8]`, agrees with the spec's algorithm. -/
theorem claim_C2_encrypt_spec_witness :
    (List.replicate 8 0 : List Nat).length = 8 ∧
    RC5.Encrypt RC5.skeytable (List.replicate 8 0) [1, 2, 3, 4, 5, 6, 7, 8] =
      Spec.encrypt RC5.skeytable [1, 2, 3, 4, 5, 6, 7, 8] :=
  ⟨by decide,
   claim_C2_encrypt_spec RC5.skeytable (List.replicate 8 0) [1, 2, 3, 4, 5, 6, 7, 8]
     (by decide) (by decide) (by decide)⟩

/-- C3: `Decrypt` computes exactly the algorithm of spec section 4.4 —
rounds from 12 down to 1, `B = rotR(B - schedule[2r+1], A mod 32) xor A`
then `A = rotR(A - schedule[2r], B mod 32) xor B` with B updated first,
then `B - schedule[1]`, `A - schedule[0]`, written little-endian. -/
theorem claim_C3_decrypt_spec (rk dst src : List Nat) (hd : dst.length = 8)
    (hs : src.length = 8) (hb : ∀ x ∈ src, x < 256) :
    RC5.Decrypt rk dst src = Spec.decrypt rk src := by
  rw [RC5.Decrypt_eq rk dst src hd]
  simp only [Spec.decrypt]
  rw [RC5.getUint32_eq_leWord (b := src) hb,
      RC5.getUint32_eq_leWord (b := src.drop 4)
        (fun x hx => hb x (List.mem_of_mem_drop hx))]
  have h := decRounds_eq_decIter rk 12 12 (Spec.leWord src) (Spec.leWord (src.drop 4))
  rw [show RC5.rounds = 12 from rfl, h]

/-- C3 witness: Decrypt against the magic table as a schedule, on the
block `[1,...,8]`, agrees with the spec's algorithm. -/
theorem claim_C3_decrypt_spec_witness :
    (List.replicate 8 0 : List Nat).length = 8 ∧
    RC5.Decrypt RC5.skeytable (List.replicate 8 0) [1, 2, 3, 4, 5, 6, 7, 8] =
      Spec.decrypt RC5.skeytable [1, 2, 3, 4, 5, 6, 7, 8] :=
  ⟨by decide,
   claim_C3_decrypt_spec RC5.skeytable (List.replicate 8 0) [1, 2, 3, 4, 5, 6, 7, 8]
     (by decide) (by decide) (by decide)⟩

/-- C4: for every 16-byte key, `New` derives the schedule exactly as spec
section 4.2 requires: 4 little-endian key words, a copy of the magic
table, and 78 mixing iterations with accumulators and cyclic indices. -/
theorem claim_C4_expand_spec (key : List Nat) (h16 : key.length = 16)
    (hb : ∀ x ∈ key, x < 256) :
    RC5.New key = Except.ok (Spec.expand key) := by
  rw [RC5.New, if_neg (by omega)]
  simp only [Spec.expand, mixLoop_eq_mixIter]
  rw [show 3 * RC5.roundKeys = 78 from rfl]
  rw [RC5.getUint32_eq_leWord (b := key) hb,
      RC5.getUint32_eq_leWord (b := key.drop 4)
        (fun x hx => hb x (List.mem_of_mem_drop hx)),
      RC5.getUint32_eq_leWord (b := key.drop 8)
        (fun x hx => hb x (List.mem_of_mem_drop hx)),
      RC5.getUint32_eq_leWord (b := key.drop 12)
        (fun x hx => hb x (List.mem_of_mem_drop hx))]

set_option maxRecDepth 100000 in
/-- C4 witness: the all-zero 16-byte key expands per the spec algorithm. -/
theorem claim_C4_expand_spec_witness :
    (List.replicate 16 0 : List Nat).length = 16 ∧
    RC5.New (List.replicate 16 0) = Except.ok (Spec.expand (List.replicate 16 0)) :=
  ⟨by decide,
   claim_C4_expand_spec (List.replicate 16 0) (by decide) (by decide)⟩

/-- C5: the magic constant table has exactly 26 32-bit words, element 0 is
`0xb7e15163`, and each later element is its predecessor plus `0x9e3779b9`
modulo `2^32`. -/
theorem claim_C5_magic_table :
    RC5.skeytable.length = 26 ∧ RC5.skeytable.getD 0 0 = 0xb7e15163 ∧
    (∀ x ∈ RC5.skeytable, x < RC5.W) ∧
    ∀ i, i < 26 → 1 ≤ i →
      RC5.skeytable.getD i 0 =
        RC5.add32 (RC5.skeytable.getD (i - 1) 0) 0x9e3779b9 := by decide

/-- C6: `New` fails with a `KeySizeError` carrying the actual key length
(and returns no cipher) exactly when the length is not 16; every 16-byte
key succeeds with no further validation. -/
theorem claim_C6_key_size (key : List Nat) :
    (key.length ≠ 16 → RC5.New key = Except.error key.length) ∧
    (key.length = 16 → (RC5.New key).isOk = true) := by
  constructor
  · intro h
    rw [RC5.New, if_pos h]
  · intro h
    rw [RC5.New, if_neg (by omega)]
    rfl

set_option maxRecDepth 100000 in
/-- C6 witness: a 3-byte key is rejected with its length, a 16-byte key
is accepted. -/
theorem claim_C6_key_size_witness :
    RC5.New (List.replicate 3 0) = Except.error 3 ∧
    (RC5.New (List.replicate 16 0)).isOk = true :=
  ⟨by
      have h := (claim_C6_key_size (List.replicate 3 0)).1 (by decide)
      simpa using h,
    (claim_C6_key_size (List.replicate 16 0)).2 (by decide)⟩

/-- C7: the two source variants are extensionally equal — `New`, `Encrypt`
and `Decrypt` of `rc5.go` (masked rotations) and of the refactor
(`bits.RotateLeft32`, with negative amounts for rotate-right) produce
identical results on all inputs. -/
theorem claim_C7_variants_agree :
    (∀ key : List Nat, RC5.New key = RC5u.New key) ∧
    (∀ rk dst src : List Nat, RC5.Encrypt rk dst src = RC5u.Encrypt rk dst src) ∧
    (∀ rk dst src : List Nat, RC5.Decrypt rk dst src = RC5u.Decrypt rk dst src) :=
  ⟨New_agrees, fun rk dst src => Encrypt_agrees rk dst src,
   fun rk dst src => Decrypt_agrees rk dst src⟩

/-- C8 counterexample: at rotation amount 33, `rotl32`/`rotr32` return 0
for the word 1, while the circular shift by `33 mod 32 = 1` returns 2
(respectively `2^31`): the Go shift expressions do not implement
rotation by amount mod 32 for amounts above 32. -/
theorem claim_C8_counterexample :
    RC5.rotl32 1 33 = 0 ∧ Spec.rotL 1 33 = 2 ∧
    RC5.rotr32 1 33 = 0 ∧ Spec.rotR 1 33 = 2147483648 ∧
    RC5.rotl32 1 33 ≠ Spec.rotL 1 33 ∧ RC5.rotr32 1 33 ≠ Spec.rotR 1 33 := by
  decide

/-- C8 (amended): for every 32-bit word `k` and every rotation amount at
most 32, `rotl32` and `rotr32` equal the circular shift of `k` by the
amount reduced modulo 32, and a rotation amount of exactly 0 is a no-op
returning `k` unchanged. -/
theorem claim_C8_rotations (k rot : Nat) (hk : k < RC5.W) (hrot : rot ≤ 32) :
    RC5.rotl32 k rot = Spec.rotL k rot ∧ RC5.rotr32 k rot = Spec.rotR k rot ∧
    RC5.rotl32 k 0 = k ∧ RC5.rotr32 k 0 = k :=
  ⟨RC5.rotl32_eq_rotL hk hrot, RC5.rotr32_eq_rotR hk hrot,
   rotl32_zero hk, rotr32_zero hk⟩

/-- C8 witness: the amended statement evaluated at word 5, amount 7. -/
theorem claim_C8_rotations_witness :
    5 < RC5.W ∧ 7 ≤ 32 ∧
    (RC5.rotl32 5 7 = Spec.rotL 5 7 ∧ RC5.rotr32 5 7 = Spec.rotR 5 7 ∧
     RC5.rotl32 5 0 = 5 ∧ RC5.rotr32 5 0 = 5) :=
  ⟨by decide, by decide, claim_C8_rotations 5 7 (by decide) (by decide)⟩

/-- C9: Encrypt and Decrypt support in-place operation — running the
transform over a single 8-byte buffer that is both destination and
source leaves the same bytes as running it with a distinct destination,
because both input words are read before any output byte is written. -/
theorem claim_C9_in_place (rk p d : List Nat) (hp : p.length = 8) (hd : d.length = 8) :
    RC5.EncryptMem rk p 0 0 = RC5.Encrypt rk d p ∧
    RC5.DecryptMem rk p 0 0 = RC5.Decrypt rk d p :=
  ⟨EncryptMem_alias hp hd, DecryptMem_alias hp hd⟩

/-- C9 witness: in-place and fresh-destination calls evaluated with the
magic table as schedule on the block `[1,...,8]`. -/
theorem claim_C9_in_place_witness :
    ([1, 2, 3, 4, 5, 6, 7, 8] : List Nat).length = 8 ∧
    (RC5.EncryptMem RC5.skeytable [1, 2, 3, 4, 5, 6, 7, 8] 0 0 =
        RC5.Encrypt RC5.skeytable (List.replicate 8 0) [1, 2, 3, 4, 5, 6, 7, 8] ∧
      RC5.DecryptMem RC5.skeytable [1, 2, 3, 4, 5, 6, 7, 8] 0 0 =
        RC5.Decrypt RC5.skeytable (List.replicate 8 0) [1, 2, 3, 4, 5, 6, 7, 8]) :=
  ⟨by decide,
   claim_C9_in_place RC5.skeytable [1, 2, 3, 4, 5, 6, 7, 8] (List.replicate 8 0)
     (by decide) (by decide)⟩

/-- C10: with buffers longer than 8 bytes, Encrypt and Decrypt write only
the first 8 bytes of the destination (indices 8 and beyond are unchanged)
and read only the first 8 bytes of the source (two sources agreeing on
their first 8 bytes give identical results); there is no length check. -/
theorem claim_C10_frame (rk dst src src2 : List Nat) (i : Nat) (hi : 8 ≤ i)
    (hs : src.take 8 = src2.take 8) :
    (RC5.Encrypt rk dst src)[i]? = dst[i]? ∧
    (RC5.Decrypt rk dst src)[i]? = dst[i]? ∧
    RC5.Encrypt rk dst src = RC5.Encrypt rk dst src2 ∧
    RC5.Decrypt rk dst src = RC5.Decrypt rk dst src2 :=
  ⟨Encrypt_frame hi, Decrypt_frame hi, Encrypt_take8 hs, Decrypt_take8 hs⟩

/-- C10 witness: 10-byte buffers, two sources differing only past index 7,
read index 9. -/
theorem claim_C10_frame_witness :
    8 ≤ 9 ∧
    ([1, 2, 3, 4, 5, 6, 7, 8, 9, 10] : List Nat).take 8 =
      ([1, 2, 3, 4, 5, 6, 7, 8, 99, 100] : List Nat).take 8 ∧
    ((RC5.Encrypt RC5.skeytable (List.replicate 10 7) [1, 2, 3, 4, 5, 6, 7, 8, 9, 10])[9]? =
        (List.replicate 10 7 : List Nat)[9]? ∧
      (RC5.Decrypt RC5.skeytable (List.replicate 10 7) [1, 2, 3, 4, 5, 6, 7, 8, 9, 10])[9]? =
        (List.replicate 10 7 : List Nat)[9]? ∧
      RC5.Encrypt RC5.skeytable (List.replicate 10 7) [1, 2, 3, 4, 5, 6, 7, 8, 9, 10] =
        RC5.Encrypt RC5.skeytable (List.replicate 10 7) [1, 2, 3, 4, 5, 6, 7, 8, 99, 100] ∧
      RC5.Decrypt RC5.skeytable (List.replicate 10 7) [1, 2, 3, 4, 5, 6, 7, 8, 9, 10] =
        RC5.Decrypt RC5.skeytable (List.replicate 10 7) [1, 2, 3, 4, 5, 6, 7, 8, 99, 100]) :=
  ⟨by decide, by decide,
   claim_C10_frame RC5.skeytable (List.replicate 10 7) [1, 2, 3, 4, 5, 6, 7, 8, 9, 10]
     [1, 2, 3, 4, 5, 6, 7, 8, 99, 100] 9 (by decide) (by decide)⟩
